import Mathlib

/-!
Shallow embedding of the Document Q&A tool of this repository
(`src/PDFQATool.py`, class `PDFQATool`, method `_run`), together with the
schema-level batch validation of `PDFQAToolInput` and the tool construction
performed by `MortgageCrew.__init__` (`src/mortgage_crew.py`).

Strings are modelled as `List Char`.  The parts of Python's `urllib.parse.urlparse`
and `os.path.splitext` that `_run` uses (scheme recognition, netloc/query/
fragment/params splitting, extension extraction) are embedded faithfully from
CPython's implementation, since `_run`'s classification of each path depends on
them.  External effects (reading a local file, `client.files.upload`,
`client.files.get_signed_url`, `client.chat.complete`) are modelled by oracle
functions in an `Env`, and every effect performed is recorded, in order, in a
trace of `Event`s, so that "zero upload calls", "exactly one inference call",
and so on are statements about the trace.
-/

deriving instance DecidableEq for Except

namespace PDFQA

abbrev Str := List Char

/-- Splits a list at the first occurrence of `c` (the occurrence removed);
`none` when `c` does not occur.  Used to embed the `find(':')`, `split('#', 1)`
and `split('?', 1)` steps of CPython's `urlsplit`. -/
def splitAtChar (c : Char) : Str → Option (Str × Str)
  | [] => none
  | x :: xs =>
    if x = c then some ([], xs)
    else
      match splitAtChar c xs with
      | none => none
      | some (a, b) => some (x :: a, b)

/-- CPython `urllib.parse.scheme_chars`: characters allowed in a URL scheme. -/
def schemeChar (c : Char) : Bool :=
  c.isAlpha || c.isDigit || c == '+' || c == '-' || c == '.'

/-- The scheme-recognition step of CPython's `urlsplit`: if the text before the
first `:` is a nonempty run of scheme characters starting with an ASCII letter,
it is the scheme (lowercased) and the remainder follows the `:`; otherwise the
scheme is empty and the whole input remains. -/
def splitScheme (url : Str) : Str × Str :=
  match splitAtChar ':' url with
  | none => ([], url)
  | some (b, a) =>
    match b with
    | [] => ([], url)
    | c :: _ => if c.isAlpha && b.all schemeChar then (b.map Char.toLower, a) else ([], url)

/-- The `.scheme` attribute of `urlparse(path)`, as used at line 44 of
`src/PDFQATool.py`. -/
def urlScheme (url : Str) : Str := (splitScheme url).1

/-- Characters that end the netloc in CPython's `_splitnetloc`. -/
def netlocStop (c : Char) : Bool := c == '/' || c == '?' || c == '#'

/-- The netloc-removal step of `urlsplit` (`if url[:2] == '//'`): when the
post-scheme text starts with `//`, the netloc runs up to the next `/`, `?`
or `#`. -/
def dropNetloc (l : Str) : Str :=
  if l.take 2 = ['/', '/'] then (l.drop 2).dropWhile (fun c => !netlocStop c) else l

/-- Fragment removal of `urlsplit`: everything from the first `#` on is the
fragment. -/
def stripFragment (l : Str) : Str :=
  match splitAtChar '#' l with
  | none => l
  | some (a, _) => a

/-- Query removal of `urlsplit` (after fragment removal): everything from the
first `?` on is the query. -/
def stripQuery (l : Str) : Str :=
  match splitAtChar '?' l with
  | none => l
  | some (a, _) => a

/-- CPython `urllib.parse._splitparams`: parameters are everything after the
first `;` of the final path segment. -/
def splitParams (p : Str) : Str :=
  let seg := (p.reverse.takeWhile (fun c => c != '/')).reverse
  let stem0 := p.take (p.length - seg.length)
  match splitAtChar ';' seg with
  | none => p
  | some (a, _) => stem0 ++ a

/-- CPython `urllib.parse.uses_params`: schemes whose paths carry `;params`. -/
def usesParams : List Str :=
  ["".toList, "ftp".toList, "hdl".toList, "prospero".toList, "http".toList,
   "imap".toList, "https".toList, "shttp".toList, "rtsp".toList, "rtspu".toList,
   "sip".toList, "sips".toList, "mms".toList, "sftp".toList, "tel".toList]

/-- The `.path` attribute of `urlparse(path)`, as used at line 47 of
`src/PDFQATool.py`: scheme and netloc removed, fragment and query stripped,
and `;params` split off the last segment for schemes that use them. -/
def urlParsePath (url : Str) : Str :=
  let sr := splitScheme url
  let p := stripQuery (stripFragment (dropNetloc sr.2))
  if usesParams.contains sr.1 then splitParams p else p

/-- The extension part of POSIX `os.path.splitext`: the suffix from the last
`.` of the final path component, provided some earlier character of that
component is not a `.` (leading dots never start an extension). -/
def splitextExt (p : Str) : Str :=
  let base := (p.reverse.takeWhile (fun c => c != '/')).reverse
  let stem := base.dropWhile (fun c => c == '.')
  if stem.contains '.' then '.' :: (stem.reverse.takeWhile (fun c => c != '.')).reverse
  else []

/-- POSIX `os.path.basename`, used for the upload's `file_name` at line 62 of
`src/PDFQATool.py`. -/
def basename (p : Str) : Str := (p.reverse.takeWhile (fun c => c != '/')).reverse

/-- Line 45 of `src/PDFQATool.py`: `is_url = parsed.scheme in ("http", "https")`. -/
def isRemote (path : Str) : Bool :=
  (urlScheme path == "http".toList) || (urlScheme path == "https".toList)

/-- Lines 46-50 of `src/PDFQATool.py`: the lowercased extension, taken from
`urlparse(path).path` for remote references and from the raw path otherwise. -/
def extOf (path : Str) : Str :=
  if isRemote path then (splitextExt (urlParsePath path)).map Char.toLower
  else (splitextExt path).map Char.toLower

/-- Line 39 of `src/PDFQATool.py`: `supported_extensions = {'.pdf', '.jpg', '.jpeg', '.png'}`. -/
def supportedExts : List Str :=
  [".pdf".toList, ".jpg".toList, ".jpeg".toList, ".png".toList]

/-- Membership in the allow-list (`ext in supported_extensions`). -/
def supportedExt (e : Str) : Bool := supportedExts.contains e

/-- One content chunk of the outgoing user message (the tagged dictionaries
built at lines 41 and 72-82 of `src/PDFQATool.py`). -/
inductive Chunk
  | text (s : Str)
  | documentUrl (u : Str)
  | imageUrl (u : Str)
deriving DecidableEq

/-- The single `client.chat.complete` request of lines 84-89 of
`src/PDFQATool.py`: model name, ordered content chunks of the one user
message, and sampling temperature. -/
structure ChatRequest where
  model : Str
  content : List Chunk
  temperature : Rat
deriving DecidableEq

/-- One observable external effect of `_run`, in the order performed:
a local file read (`open(path, "rb").read()`), an upload
(`client.files.upload`, with its `file_name`, bytes and `purpose`), a
signed-URL request (`client.files.get_signed_url`), or the chat-completion
call (`client.chat.complete`). -/
inductive Event
  | fileRead (path : Str)
  | upload (fileName : Str) (content : List Nat) (purpose : Str)
  | getSignedUrl (fileId : Str)
  | chatComplete (req : ChatRequest)
deriving DecidableEq

/-- The failures `_run` (or the schema validation in front of it) can raise:
the `ValueError` for a missing `MISTRAL_API_KEY` (line 35), the pydantic
rejection of an over-long `paths` list, the `ValueError` for an unsupported
extension (line 52), the `FileNotFoundError`/`IOError` of `open(path)`
(line 59), an exception raised by `client.chat.complete` itself, and the
`IndexError` of the unguarded `chat_resp.choices[0]` (line 92). -/
inductive RunError
  | missingApiKey
  | validationError
  | unsupportedFileType (ext : Str)
  | fileNotFound (path : Str)
  | sdkError (msg : Str)
  | indexError
deriving DecidableEq

/-- The execution environment of one `_run` call: the `MISTRAL_API_KEY`
environment variable, the local filesystem, and deterministic oracles for the
three Mistral endpoints (upload returns a file id, signed-URL returns a URL,
chat returns either a provider error or the list of choices' message texts). -/
structure Env where
  mistralApiKey : Option Str
  fs : Str → Option (List Nat)
  uploadId : Str → List Nat → Str
  signedUrl : Str → Str
  chatChoices : ChatRequest → Except Str (List Str)

/-- Python truthiness of `api_key` at line 34: present and nonempty. -/
def apiKeyPresent : Option Str → Bool
  | none => false
  | some k => !k.isEmpty

/-- Lines 72-82 of `src/PDFQATool.py`: a `document_url` chunk when the
lowercased extension is `.pdf`, an `image_url` chunk otherwise. -/
def chunkFor (ext : Str) (ref : Str) : Chunk :=
  if ext = ".pdf".toList then Chunk.documentUrl ref else Chunk.imageUrl ref

/-- The body of the `for path in paths` loop (lines 43-82 of
`src/PDFQATool.py`) for one path: classify it, reject unsupported extensions,
pass a remote URL through verbatim, and otherwise read the file, upload it
with `purpose="ocr"`, and fetch its signed URL.  Returns the content chunk
appended for this path together with the effects performed, or the error
raised. -/
def processPath (env : Env) (path : Str) : Except RunError (Chunk × List Event) :=
  let ext := extOf path
  if supportedExt ext = false then .error (.unsupportedFileType ext)
  else if isRemote path then .ok (chunkFor ext path, [])
  else
    match env.fs path with
    | none => .error (.fileNotFound path)
    | some content =>
      let fid := env.uploadId (basename path) content
      .ok (chunkFor ext (env.signedUrl fid),
        [.fileRead path,
         .upload (basename path) content ("ocr".toList),
         .getSignedUrl fid])

/-- The whole `for path in paths` loop: paths are processed one at a time, in
input order; the first failure aborts the loop (discarding no effect already
performed: those remain in the trace), and on success the chunks appear in
input order. -/
def processAll (env : Env) : List Str → Except RunError (List Chunk) × List Event
  | [] => (.ok [], [])
  | p :: ps =>
    match processPath env p with
    | .error e => (.error e, [])
    | .ok (c, evs) =>
      match processAll env ps with
      | (.error e, evs2) => (.error e, evs ++ evs2)
      | (.ok cs, evs2) => (.ok (c :: cs), evs ++ evs2)

/-- The chat-completion request built at lines 84-89 of `src/PDFQATool.py`:
model `mistral-medium-latest`, the question's text chunk followed by the
per-path chunks, temperature `0.0`. -/
def mkReq (question : Str) (chunks : List Chunk) : ChatRequest :=
  ⟨"mistral-medium-latest".toList, Chunk.text question :: chunks, 0⟩

/-- `PDFQATool._run` (lines 31-92 of `src/PDFQATool.py`): check the API key,
run the loop over `paths`, issue the single chat-completion call, and return
`chat_resp.choices[0].message.content`.  The second component is the ordered
trace of external effects performed. -/
def run (env : Env) (paths : List Str) (question : Str) :
    Except RunError Str × List Event :=
  if apiKeyPresent env.mistralApiKey = false then (.error .missingApiKey, [])
  else
    match processAll env paths with
    | (.error e, evs) => (.error e, evs)
    | (.ok chunks, evs) =>
      let req := mkReq question chunks
      match env.chatChoices req with
      | .error m => (.error (.sdkError m), evs ++ [.chatComplete req])
      | .ok [] => (.error .indexError, evs ++ [.chatComplete req])
      | .ok (c :: _) => (.ok c, evs ++ [.chatComplete req])

/-- The tool invocation as the orchestrator sees it: the pydantic schema
`PDFQAToolInput` validates the arguments first (its only bound on `paths` is
`max_items=10`; it declares no lower bound), then `_run` executes. -/
def answer (env : Env) (paths : List Str) (question : Str) :
    Except RunError Str × List Event :=
  if paths.length ≤ 10 then run env paths question
  else (.error .validationError, [])

/-- The class-level field values of `PDFQATool` (lines 24-28 of
`src/PDFQATool.py`). -/
structure PDFQAToolData where
  name : Str
  description : Str
deriving DecidableEq

/-- The value `PDFQATool()` constructs. -/
def pdfqaToolDefault : PDFQAToolData :=
  ⟨"PDFQATool".toList,
   ("Uploads scanned PDFs or images (JPG, JPEG, PNG) to Mistral, retrieves signed HTTPS URLs, and answers a question across all of them in one go.").toList⟩

/-- Construction of the tool, as performed by `MortgageCrew.__init__`
(line 66 of `src/mortgage_crew.py`): `PDFQATool()` takes no arguments and
reads nothing from the environment; in particular it never consults
`MISTRAL_API_KEY`, so construction succeeds for every environment. -/
def pdfqaToolNew (_env : Env) : Except RunError PDFQAToolData :=
  .ok pdfqaToolDefault

/-- Recognizer for chat-completion events in a trace. -/
def isChatEv : Event → Bool
  | .chatComplete _ => true
  | _ => false

/-- Recognizer for upload events in a trace. -/
def isUploadEv : Event → Bool
  | .upload _ _ _ => true
  | _ => false

/-- Recognizer for signed-URL events in a trace. -/
def isSignedUrlEv : Event → Bool
  | .getSignedUrl _ => true
  | _ => false

/-- Recognizer for local file-read events in a trace. -/
def isReadEv : Event → Bool
  | .fileRead _ => true
  | _ => false

/-- The effects one path contributes to a successful run's trace. -/
def pathEvents (env : Env) (path : Str) : List Event :=
  match processPath env path with
  | .ok (_, evs) => evs
  | .error _ => []

/-- Concrete environment: key present, one readable local file `local.pdf`
with bytes `[1, 2, 3]`, deterministic upload and signed-URL oracles, and a
chat endpoint that always answers `the-answer`. -/
def testEnv : Env where
  mistralApiKey := some ("key".toList)
  fs := fun p => if p = "local.pdf".toList then some [1, 2, 3] else none
  uploadId := fun _ _ => "fid1".toList
  signedUrl := fun fid => "https://s/".toList ++ fid
  chatChoices := fun _ => Except.ok ["the-answer".toList]

/-- Concrete environment with no `MISTRAL_API_KEY`. -/
def noKeyEnv : Env where
  mistralApiKey := none
  fs := fun _ => none
  uploadId := fun _ _ => "id".toList
  signedUrl := fun _ => "u".toList
  chatChoices := fun _ => Except.ok ["a".toList]

/-- Concrete environment whose chat endpoint returns an empty `choices` list. -/
def emptyChoicesEnv : Env where
  mistralApiKey := some ("key".toList)
  fs := fun _ => none
  uploadId := fun _ _ => "id".toList
  signedUrl := fun _ => "u".toList
  chatChoices := fun _ => Except.ok []

/-! ### General lemmas about the embedding -/

/-- Characters outside the ASCII uppercase range are fixed by `Char.toLower`. -/
theorem toLower_of_not_upper {d : Char} (hd : ¬(d.toNat ≥ 65 ∧ d.toNat ≤ 90)) :
    d.toLower = d := by
  unfold Char.toLower
  exact if_neg hd

/-- On an ASCII uppercase character, `Char.toLower` adds 32 to the code point. -/
theorem toLower_of_upper {c : Char} (h : c.toNat ≥ 65 ∧ c.toNat ≤ 90) :
    c.toLower = Char.ofNat (c.toNat + 32) := by
  unfold Char.toLower
  exact if_pos h

/-- Code point of a valid (small) scalar built with `Char.ofNat`. -/
theorem toNat_ofNat_small {m : Nat} (hm : m < 55296) : (Char.ofNat m).toNat = m := by
  have hv : m.isValidChar := Or.inl hm
  unfold Char.ofNat
  rw [dif_pos hv]
  simp [Char.ofNatAux, Char.toNat, UInt32.toNat, BitVec.toNat_ofNatLt]

/-- Lowercasing a character twice is the same as lowercasing it once. -/
theorem toLower_toLower (c : Char) : c.toLower.toLower = c.toLower := by
  by_cases h : c.toNat ≥ 65 ∧ c.toNat ≤ 90
  · rw [toLower_of_upper h]
    apply toLower_of_not_upper
    rw [toNat_ofNat_small (by omega)]
    omega
  · rw [toLower_of_not_upper h, toLower_of_not_upper h]

/-- Lowercasing a string twice is the same as lowercasing it once. -/
theorem map_toLower_idem (l : Str) :
    (l.map Char.toLower).map Char.toLower = l.map Char.toLower := by
  induction l with
  | nil => rfl
  | cons c l ih => simp only [List.map_cons, ih, toLower_toLower]

/-- The extension computed by `_run` is already lowercase. -/
theorem extOf_lower (path : Str) : (extOf path).map Char.toLower = extOf path := by
  unfold extOf
  split <;> exact map_toLower_idem _

/-- On a supported remote reference, the loop body passes the URL through
verbatim and performs no effect at all. -/
theorem processPath_remote {env : Env} {path : Str}
    (hs : supportedExt (extOf path) = true) (hr : isRemote path = true) :
    processPath env path = .ok (chunkFor (extOf path) path, []) := by
  unfold processPath
  simp [hs, hr]

/-- On a supported, readable local reference, the loop body reads the file,
uploads it with `purpose="ocr"`, requests one signed URL, and uses that URL as
the chunk's reference. -/
theorem processPath_local {env : Env} {path : Str} {content : List Nat}
    (hs : supportedExt (extOf path) = true) (hr : isRemote path = false)
    (hf : env.fs path = some content) :
    processPath env path =
      .ok (chunkFor (extOf path) (env.signedUrl (env.uploadId (basename path) content)),
        [.fileRead path,
         .upload (basename path) content ("ocr".toList),
         .getSignedUrl (env.uploadId (basename path) content)]) := by
  unfold processPath
  simp [hs, hr, hf]

/-- An unsupported extension is rejected by the loop body with the offending
(lowercased) extension, before any effect. -/
theorem processPath_unsupported {env : Env} {path : Str}
    (hs : supportedExt (extOf path) = false) :
    processPath env path = .error (.unsupportedFileType (extOf path)) := by
  unfold processPath
  simp [hs]

/-- A successful loop body implies the extension was on the allow-list, and
the produced chunk is a `document_url` for `.pdf` and an `image_url`
otherwise. -/
theorem processPath_ok_shape {env : Env} {path : Str} {c : Chunk} {evs : List Event}
    (h : processPath env path = .ok (c, evs)) :
    supportedExt (extOf path) = true
    ∧ (extOf path = ".pdf".toList → ∃ u, c = Chunk.documentUrl u)
    ∧ (extOf path ≠ ".pdf".toList → ∃ u, c = Chunk.imageUrl u) := by
  unfold processPath at h
  by_cases hs : supportedExt (extOf path) = false
  · rw [if_pos hs] at h
    exact absurd h (by simp)
  · rw [if_neg hs] at h
    refine ⟨by revert hs; cases supportedExt (extOf path) <;> simp, ?_⟩
    have hc : ∃ ref, c = chunkFor (extOf path) ref := by
      by_cases hr : isRemote path
      · rw [if_pos hr] at h
        exact ⟨path, by injection h with h1; injection h1 with h2 _; exact h2.symm⟩
      · rw [if_neg hr] at h
        cases hf : env.fs path with
        | none => rw [hf] at h; exact absurd h (by simp)
        | some content =>
          rw [hf] at h
          exact ⟨_, by injection h with h1; injection h1 with h2 _; exact h2.symm⟩
    obtain ⟨ref, hc⟩ := hc
    subst hc
    unfold chunkFor
    constructor
    · intro hpdf
      rw [if_pos hpdf]
      exact ⟨ref, rfl⟩
    · intro hnot
      rw [if_neg hnot]
      exact ⟨ref, rfl⟩

/-- The loop body never issues a chat-completion call. -/
theorem processPath_no_chat {env : Env} {path : Str} {c : Chunk} {evs : List Event}
    (h : processPath env path = .ok (c, evs)) : evs.countP isChatEv = 0 := by
  unfold processPath at h
  by_cases hs : supportedExt (extOf path) = false
  · rw [if_pos hs] at h
    exact absurd h (by simp)
  · rw [if_neg hs] at h
    by_cases hr : isRemote path
    · rw [if_pos hr] at h
      injection h with h1
      injection h1 with _ h2
      simp [← h2]
    · rw [if_neg hr] at h
      cases hf : env.fs path with
      | none => rw [hf] at h; exact absurd h (by simp)
      | some content =>
        rw [hf] at h
        injection h with h1
        injection h1 with _ h2
        simp [← h2, isChatEv]

/-- The per-path effects contain no chat-completion call. -/
theorem pathEvents_no_chat (env : Env) (path : Str) :
    (pathEvents env path).countP isChatEv = 0 := by
  unfold pathEvents
  split
  · exact processPath_no_chat (by assumption)
  · rfl

/-- A successful loop over `paths` relates each path to its chunk in input
order, and its trace is the concatenation of the per-path effects in input
order. -/
theorem processAll_ok {env : Env} :
    ∀ {paths : List Str} {chunks : List Chunk} {evs : List Event},
    processAll env paths = (.ok chunks, evs) →
    List.Forall₂ (fun p c => processPath env p = .ok (c, pathEvents env p)) paths chunks
    ∧ evs = paths.flatMap (pathEvents env) := by
  intro paths
  induction paths with
  | nil =>
    intro chunks evs h
    unfold processAll at h
    injection h with h1 h2
    injection h1 with h1
    subst h1; subst h2
    exact ⟨.nil, rfl⟩
  | cons p ps ih =>
    intro chunks evs h
    unfold processAll at h
    cases hp : processPath env p with
    | error e => rw [hp] at h; exact absurd h (by simp)
    | ok cpe =>
      obtain ⟨c, pe⟩ := cpe
      rw [hp] at h
      cases hr : processAll env ps with
      | mk r evs2 =>
        rw [hr] at h
        cases r with
        | error e => exact absurd h (by simp)
        | ok cs =>
          simp only [Prod.mk.injEq, Except.ok.injEq] at h
          obtain ⟨h1, h2⟩ := h
          obtain ⟨hf2, he2⟩ := ih hr
          have hpe : pathEvents env p = pe := by unfold pathEvents; rw [hp]
          subst h1
          constructor
          · exact .cons (by rw [hpe]; exact hp) hf2
          · rw [← h2, he2, List.flatMap_cons, hpe]

/-- When every path of a first segment processes successfully and the next
path has an unsupported extension, the loop fails with `UnsupportedFileType`
for that extension, and the trace holds exactly the effects of the first
segment: the uploads already performed are not undone, and nothing after the
offending path is processed. -/
theorem processAll_append_bad {env : Env} {bad : Str} (rest : List Str)
    (hbad : supportedExt (extOf bad) = false) :
    ∀ (good : List Str), (∀ p ∈ good, (processPath env p).isOk = true) →
    processAll env (good ++ bad :: rest) =
      (.error (.unsupportedFileType (extOf bad)), good.flatMap (pathEvents env)) := by
  intro good
  induction good with
  | nil =>
    intro _
    simp only [List.nil_append, List.flatMap_nil]
    unfold processAll
    rw [processPath_unsupported hbad]
  | cons p good ih =>
    intro hall
    have hp := hall p (List.mem_cons_self p good)
    cases hpp : processPath env p with
    | error e => rw [hpp] at hp; exact absurd hp (by simp [Except.isOk, Except.toBool])
    | ok cpe =>
      obtain ⟨c, pe⟩ := cpe
      have hrec := ih (fun q hq => hall q (List.mem_cons_of_mem p hq))
      have hpe : pathEvents env p = pe := by unfold pathEvents; rw [hpp]
      show processAll env (p :: (good ++ bad :: rest)) = _
      unfold processAll
      rw [hpp, hrec, List.flatMap_cons, hpe]

/-- Elimination principle for a successful `_run`: the key was present, every
path resolved to its chunk in order, the trace is the per-path effects
followed by exactly one chat-completion call on the assembled request, and the
result is the first choice the chat endpoint returned. -/
theorem run_ok_elim {env : Env} {paths : List Str} {q a : Str} {evs : List Event}
    (h : run env paths q = (.ok a, evs)) :
    apiKeyPresent env.mistralApiKey = true
    ∧ ∃ chunks rest,
        List.Forall₂ (fun p c => processPath env p = .ok (c, pathEvents env p)) paths chunks
        ∧ evs = paths.flatMap (pathEvents env) ++ [.chatComplete (mkReq q chunks)]
        ∧ env.chatChoices (mkReq q chunks) = .ok (a :: rest) := by
  unfold run at h
  by_cases hk : apiKeyPresent env.mistralApiKey = false
  · rw [if_pos hk] at h
    exact absurd h (by simp)
  · rw [if_neg hk] at h
    refine ⟨by revert hk; cases apiKeyPresent env.mistralApiKey <;> simp, ?_⟩
    cases hall : processAll env paths with
    | mk r evs0 =>
      rw [hall] at h
      cases r with
      | error e => exact absurd h (by simp)
      | ok chunks =>
        simp only at h
        cases hc : env.chatChoices (mkReq q chunks) with
        | error m => rw [hc] at h; exact absurd h (by simp)
        | ok choices =>
          rw [hc] at h
          cases choices with
          | nil => exact absurd h (by simp)
          | cons c cs =>
            simp only [Prod.mk.injEq, Except.ok.injEq] at h
            obtain ⟨h1, h2⟩ := h
            obtain ⟨hf, he⟩ := processAll_ok hall
            subst h1
            exact ⟨chunks, cs, hf, by rw [← h2, he], hc⟩

/-- No per-path effect of the loop is a chat-completion call. -/
theorem flatMap_pathEvents_no_chat (env : Env) (paths : List Str) :
    (paths.flatMap (pathEvents env)).countP isChatEv = 0 := by
  induction paths with
  | nil => rfl
  | cons p ps ih =>
    rw [List.flatMap_cons, List.countP_append, ih, pathEvents_no_chat]

/-- The loop's trace never holds a chat-completion call, whether it succeeds
or aborts. -/
theorem processAll_no_chat (env : Env) : ∀ paths : List Str,
    ((processAll env paths).2).countP isChatEv = 0 := by
  intro paths
  induction paths with
  | nil => rfl
  | cons p ps ih =>
    unfold processAll
    cases hp : processPath env p with
    | error e => rfl
    | ok cpe =>
      obtain ⟨c, pe⟩ := cpe
      cases hr : processAll env ps with
      | mk r evs2 =>
        rw [hr] at ih
        cases r <;>
          simpa [List.countP_append, processPath_no_chat hp] using ih

/-- Every element of the left list of a `Forall₂` has a related partner. -/
theorem forall2_mem_left {α β : Type} {R : α → β → Prop} :
    ∀ {l₁ : List α} {l₂ : List β}, List.Forall₂ R l₁ l₂ →
    ∀ {a : α}, a ∈ l₁ → ∃ b, R a b := by
  intro l₁ l₂ h
  induction h with
  | nil => intro a ha; exact absurd ha (by simp)
  | cons hr _ ih =>
    intro a ha
    rcases List.mem_cons.mp ha with rfl | ha
    · exact ⟨_, hr⟩
    · exact ih ha

/-- A successful loop body on a local path certifies that the file existed and
that exactly the read-upload-sign triple of effects was performed. -/
theorem processPath_ok_local_elim {env : Env} {p : Str} {c : Chunk} {evs : List Event}
    (h : processPath env p = .ok (c, evs)) (hl : isRemote p = false) :
    ∃ content, env.fs p = some content
      ∧ evs = [.fileRead p,
               .upload (basename p) content ("ocr".toList),
               .getSignedUrl (env.uploadId (basename p) content)] := by
  unfold processPath at h
  by_cases hs : supportedExt (extOf p) = false
  · rw [if_pos hs] at h
    exact absurd h (by simp)
  · rw [if_neg hs, if_neg (by simp [hl])] at h
    cases hfp : env.fs p with
    | none => rw [hfp] at h; exact absurd h (by simp)
    | some content =>
      rw [hfp] at h
      refine ⟨content, rfl, ?_⟩
      injection h with h1
      injection h1 with _ h2
      exact h2.symm

/-! ### Claims -/

/-- Claim C1 (counterexample): in a batch where a valid local reference
precedes the invalid one, `answer` does fail with `UnsupportedFileType`
naming the offending extension, but it has already performed one upload and
one signed-URL call by then — not zero as the claim requires. -/
theorem claim1_counterexample :
    (answer testEnv ["local.pdf".toList, "bad.xyz".toList] ("q".toList)).1
      = .error (.unsupportedFileType (".xyz".toList))
    ∧ ((answer testEnv ["local.pdf".toList, "bad.xyz".toList] ("q".toList)).2.countP isUploadEv) = 1
    ∧ ((answer testEnv ["local.pdf".toList, "bad.xyz".toList] ("q".toList)).2.countP isSignedUrlEv) = 1 :=
  ⟨by decide, by decide, by decide⟩

/-- Claim C1 (amended): when some path of the batch has an unsupported
extension, `answer` fails with `UnsupportedFileType` carrying that (first
offending) extension and performs zero inference calls; but validation is
interleaved with processing, so the uploads and signed-URL requests of the
valid local references appearing earlier in input order have already been
performed — the trace is exactly the per-path effects of the prefix before
the first invalid reference. -/
theorem claim1_fail_fast_per_path (env : Env) (good rest : List Str) (bad q : Str)
    (hkey : apiKeyPresent env.mistralApiKey = true)
    (hgood : ∀ p ∈ good, (processPath env p).isOk = true)
    (hbad : supportedExt (extOf bad) = false) :
    run env (good ++ bad :: rest) q
      = (.error (.unsupportedFileType (extOf bad)), good.flatMap (pathEvents env))
    ∧ (good.flatMap (pathEvents env)).countP isChatEv = 0 := by
  constructor
  · unfold run
    rw [if_neg (by rw [hkey]; simp), processAll_append_bad rest hbad good hgood]
  · exact flatMap_pathEvents_no_chat env good

/-- Witness for C1's amended theorem at a concrete batch. -/
theorem claim1_witness :
    run testEnv (["local.pdf".toList] ++ ("bad.xyz".toList) :: []) ("q".toList)
      = (.error (.unsupportedFileType (extOf ("bad.xyz".toList))),
         (["local.pdf".toList]).flatMap (pathEvents testEnv))
    ∧ ((["local.pdf".toList]).flatMap (pathEvents testEnv)).countP isChatEv = 0 :=
  claim1_fail_fast_per_path testEnv ["local.pdf".toList] [] ("bad.xyz".toList) ("q".toList)
    (by decide) (by decide) (by decide)

/-- Claim C2 (counterexample): the empty batch is not rejected.  The schema
bounds `paths` only by `max_items=10` and `_run` has no length check, so
`answer` on `[]` succeeds and issues one inference call — instead of failing
with a validation error before any network call. -/
theorem claim2_counterexample :
    answer testEnv [] ("q".toList)
      = (.ok ("the-answer".toList),
         [.chatComplete ⟨"mistral-medium-latest".toList, [Chunk.text ("q".toList)], 0⟩]) := by
  decide

/-- Claim C2 (amended): only the upper bound is enforced.  A batch of more
than 10 paths fails validation with zero calls of any kind, while the empty
batch passes validation and proceeds to exactly one inference call (its
request holding only the question chunk). -/
theorem claim2_upper_bound_only (env : Env) (paths : List Str) (q : Str) :
    (10 < paths.length → answer env paths q = (.error .validationError, []))
    ∧ (apiKeyPresent env.mistralApiKey = true →
        (answer env [] q).2 = [Event.chatComplete (mkReq q [])]) := by
  constructor
  · intro hlen
    unfold answer
    rw [if_neg (by omega)]
  · intro hk
    unfold answer
    rw [if_pos (by simp)]
    unfold run
    rw [if_neg (by rw [hk]; simp)]
    rw [show processAll env []
        = ((.ok [] : Except RunError (List Chunk)), ([] : List Event)) from rfl]
    cases hc : env.chatChoices (mkReq q []) with
    | error m => simp [hc]
    | ok choices => cases choices <;> simp [hc]

/-- Witness for C2's amended theorem: an 11-path batch is rejected with an
empty trace, and the empty batch produces exactly one inference call. -/
theorem claim2_witness :
    answer testEnv (List.replicate 11 ("a.pdf".toList)) ("q".toList)
      = (.error .validationError, [])
    ∧ (answer testEnv [] ("q".toList)).2 = [Event.chatComplete (mkReq ("q".toList) [])] :=
  ⟨(claim2_upper_bound_only testEnv (List.replicate 11 ("a.pdf".toList)) ("q".toList)).1
      (by decide),
   (claim2_upper_bound_only testEnv [] ("q".toList)).2 (by decide)⟩

/-- Claim C3 (counterexample): with no API key in the environment, tool
construction (`PDFQATool()` in `MortgageCrew.__init__`) succeeds — it is the
first `_run` call that fails — contradicting the claim that construction
itself is a hard failure. -/
theorem claim3_counterexample :
    pdfqaToolNew noKeyEnv = .ok pdfqaToolDefault
    ∧ (run noKeyEnv ["a.pdf".toList] ("q".toList)).1 = .error .missingApiKey :=
  ⟨rfl, rfl⟩

/-- Claim C3 (amended): the credential is not required at construction time;
constructing the tool succeeds in every environment, and a missing key
instead makes each `answer` call fail hard (with the missing-key
`ValueError`, before any effect) at invocation time. -/
theorem claim3_key_checked_at_call (env : Env) (paths : List Str) (q : Str)
    (h : apiKeyPresent env.mistralApiKey = false) :
    pdfqaToolNew env = .ok pdfqaToolDefault
    ∧ run env paths q = (.error .missingApiKey, []) := by
  refine ⟨rfl, ?_⟩
  unfold run
  rw [if_pos h]

/-- Witness for C3's amended theorem at a concrete keyless environment. -/
theorem claim3_witness :
    pdfqaToolNew noKeyEnv = .ok pdfqaToolDefault
    ∧ run noKeyEnv ["b.png".toList] ("q2".toList) = (.error .missingApiKey, []) :=
  claim3_key_checked_at_call noKeyEnv ["b.png".toList] ("q2".toList) (by decide)

/-- Claim C4: with no credential in the environment, `_run` fails with the
missing-key error (the spec's `ConfigurationError`) before performing any
I/O: the trace is empty — no file read, no upload, no signed-URL request, no
inference call — for every batch and question. -/
theorem claim4_no_credential_no_io (env : Env) (paths : List Str) (q : Str)
    (h : apiKeyPresent env.mistralApiKey = false) :
    run env paths q = (.error .missingApiKey, []) := by
  unfold run
  rw [if_pos h]

/-- Witness for C4 at the concrete scenario `answer(["./a.pdf"], "q")` with
the key unset. -/
theorem claim4_witness :
    run noKeyEnv ["./a.pdf".toList] ("q".toList) = (.error .missingApiKey, []) :=
  claim4_no_credential_no_io noKeyEnv ["./a.pdf".toList] ("q".toList) (by decide)

/-- Claim C6: every successful `_run` issues exactly one chat-completion
call, whatever the batch, and every chat request it ever makes pins
`temperature` to `0` (and the model to `mistral-medium-latest`). -/
theorem claim6_single_inference_temp0 (env : Env) (paths : List Str) (q a : Str)
    (evs : List Event) (h : run env paths q = (.ok a, evs)) :
    evs.countP isChatEv = 1
    ∧ ∀ req, Event.chatComplete req ∈ evs →
        req.temperature = 0 ∧ req.model = "mistral-medium-latest".toList := by
  obtain ⟨hk, chunks, rest, hf, he, hc⟩ := run_ok_elim h
  constructor
  · rw [he, List.countP_append, flatMap_pathEvents_no_chat]
    simp [List.countP_cons, isChatEv]
  · intro req hreq
    rw [he] at hreq
    rcases List.mem_append.mp hreq with hmem | hmem
    · exfalso
      have h0 := flatMap_pathEvents_no_chat env paths
      rw [List.countP_eq_zero] at h0
      exact absurd (h0 _ hmem) (by simp [isChatEv])
    · have heq := List.mem_singleton.mp hmem
      injection heq with h3
      subst h3
      exact ⟨rfl, rfl⟩

/-- Witness for C6 at a concrete successful one-document run. -/
theorem claim6_witness :
    ([Event.fileRead ("local.pdf".toList),
      Event.upload ("local.pdf".toList) [1, 2, 3] ("ocr".toList),
      Event.getSignedUrl ("fid1".toList),
      Event.chatComplete ⟨"mistral-medium-latest".toList,
        [Chunk.text ("q".toList), Chunk.documentUrl ("https://s/fid1".toList)], 0⟩] :
        List Event).countP isChatEv = 1
    ∧ ∀ req, Event.chatComplete req ∈
        ([Event.fileRead ("local.pdf".toList),
          Event.upload ("local.pdf".toList) [1, 2, 3] ("ocr".toList),
          Event.getSignedUrl ("fid1".toList),
          Event.chatComplete ⟨"mistral-medium-latest".toList,
            [Chunk.text ("q".toList), Chunk.documentUrl ("https://s/fid1".toList)], 0⟩] :
            List Event) →
        req.temperature = 0 ∧ req.model = "mistral-medium-latest".toList :=
  claim6_single_inference_temp0 testEnv ["local.pdf".toList] ("q".toList)
    ("the-answer".toList) _ (by decide)

/-- Claim C7: for a supported reference, origin decides the effects.  A
remote reference (scheme `http`/`https` after URL parsing) is passed through
verbatim as the chunk's reference with no effect at all; a local reference is
read once, uploaded once with `purpose="ocr"` under its basename, and
resolved by exactly one signed-URL request whose result becomes the chunk's
reference. -/
theorem claim7_origin_decides_effects (env : Env) (path : Str)
    (hs : supportedExt (extOf path) = true) :
    (isRemote path = true →
      processPath env path = .ok (chunkFor (extOf path) path, []))
    ∧ (isRemote path = false → ∀ content, env.fs path = some content →
        processPath env path =
          .ok (chunkFor (extOf path)
                (env.signedUrl (env.uploadId (basename path) content)),
            [.fileRead path,
             .upload (basename path) content ("ocr".toList),
             .getSignedUrl (env.uploadId (basename path) content)])) :=
  ⟨fun hr => processPath_remote hs hr,
   fun hr _ hf => processPath_local hs hr hf⟩

/-- Witness for C7: one remote and one local concrete reference. -/
theorem claim7_witness :
    processPath testEnv ("https://x/b.png".toList)
      = .ok (chunkFor (extOf ("https://x/b.png".toList)) ("https://x/b.png".toList), [])
    ∧ processPath testEnv ("local.pdf".toList)
      = .ok (chunkFor (extOf ("local.pdf".toList))
              (testEnv.signedUrl (testEnv.uploadId (basename ("local.pdf".toList)) [1, 2, 3])),
          [.fileRead ("local.pdf".toList),
           .upload (basename ("local.pdf".toList)) [1, 2, 3] ("ocr".toList),
           .getSignedUrl (testEnv.uploadId (basename ("local.pdf".toList)) [1, 2, 3])]) :=
  ⟨(claim7_origin_decides_effects testEnv ("https://x/b.png".toList) (by decide)).1 (by decide),
   (claim7_origin_decides_effects testEnv ("local.pdf".toList) (by decide)).2 (by decide)
     [1, 2, 3] (by decide)⟩

/-- Claim C10: a successful run's trace is exactly the concatenation of each
occurrence's own effects (in input order) followed by the one chat call; the
outgoing message holds one chunk per occurrence plus the question chunk; and
each local occurrence contributes its own read-upload-sign triple.  Nothing
is deduplicated across repeated references. -/
theorem claim10_no_dedup (env : Env) (paths : List Str) (q a : Str)
    (evs : List Event) (h : run env paths q = (.ok a, evs)) :
    ∃ req, evs = paths.flatMap (pathEvents env) ++ [Event.chatComplete req]
      ∧ req.content.length = paths.length + 1
      ∧ ∀ p ∈ paths, isRemote p = false →
          ∃ content, env.fs p = some content
            ∧ pathEvents env p =
                [Event.fileRead p,
                 Event.upload (basename p) content ("ocr".toList),
                 Event.getSignedUrl (env.uploadId (basename p) content)] := by
  obtain ⟨hk, chunks, rest, hf, he, hc⟩ := run_ok_elim h
  refine ⟨mkReq q chunks, he, ?_, ?_⟩
  · simp [mkReq, hf.length_eq]
  · intro p hp hlocal
    obtain ⟨c, hpc⟩ := forall2_mem_left hf hp
    exact processPath_ok_local_elim hpc hlocal

/-- Witness for C10 at a batch repeating the same local file twice: the trace
holds two reads, two uploads and two signed-URL requests. -/
theorem claim10_witness :
    ∃ req, ([Event.fileRead ("local.pdf".toList),
      Event.upload ("local.pdf".toList) [1, 2, 3] ("ocr".toList),
      Event.getSignedUrl ("fid1".toList),
      Event.fileRead ("local.pdf".toList),
      Event.upload ("local.pdf".toList) [1, 2, 3] ("ocr".toList),
      Event.getSignedUrl ("fid1".toList),
      Event.chatComplete ⟨"mistral-medium-latest".toList,
        [Chunk.text ("q".toList), Chunk.documentUrl ("https://s/fid1".toList),
         Chunk.documentUrl ("https://s/fid1".toList)], 0⟩] : List Event)
        = (["local.pdf".toList, "local.pdf".toList]).flatMap (pathEvents testEnv)
            ++ [Event.chatComplete req]
      ∧ req.content.length = (["local.pdf".toList, "local.pdf".toList]).length + 1
      ∧ ∀ p ∈ ["local.pdf".toList, "local.pdf".toList], isRemote p = false →
          ∃ content, testEnv.fs p = some content
            ∧ pathEvents testEnv p =
                [Event.fileRead p,
                 Event.upload (basename p) content ("ocr".toList),
                 Event.getSignedUrl (testEnv.uploadId (basename p) content)] :=
  claim10_no_dedup testEnv ["local.pdf".toList, "local.pdf".toList] ("q".toList)
    ("the-answer".toList) _ (by decide)

/-- Claim C5: in every successful run, the outgoing message's content starts
with the single text chunk carrying the question, followed by one
document/image chunk per input reference, in input order — `document_url`
exactly for the `.pdf` references, `image_url` for the rest — and this is the
message of the run's one chat-completion call. -/
theorem claim5_question_chunk_first (env : Env) (paths : List Str) (q a : Str)
    (evs : List Event) (h : run env paths q = (.ok a, evs)) :
    ∃ chunks req,
      req.content = Chunk.text q :: chunks
      ∧ evs.filter isChatEv = [Event.chatComplete req]
      ∧ List.Forall₂
          (fun p c =>
            (extOf p = ".pdf".toList → ∃ u, c = Chunk.documentUrl u)
            ∧ (extOf p ≠ ".pdf".toList → ∃ u, c = Chunk.imageUrl u))
          paths chunks := by
  obtain ⟨hk, chunks, rest, hf, he, hc⟩ := run_ok_elim h
  refine ⟨chunks, mkReq q chunks, rfl, ?_, ?_⟩
  · rw [he, List.filter_append]
    have h0 : (paths.flatMap (pathEvents env)).filter isChatEv = [] := by
      rw [List.filter_eq_nil_iff]
      intro e hmem
      have h1 := flatMap_pathEvents_no_chat env paths
      rw [List.countP_eq_zero] at h1
      exact h1 e hmem
    rw [h0]
    simp [isChatEv]
  · refine List.Forall₂.imp ?_ hf
    intro p c hpc
    exact (processPath_ok_shape hpc).2

/-- Witness for C5 at a concrete successful one-document run. -/
theorem claim5_witness :
    ∃ chunks req,
      req.content = Chunk.text ("q".toList) :: chunks
      ∧ ([Event.fileRead ("local.pdf".toList),
          Event.upload ("local.pdf".toList) [1, 2, 3] ("ocr".toList),
          Event.getSignedUrl ("fid1".toList),
          Event.chatComplete ⟨"mistral-medium-latest".toList,
            [Chunk.text ("q".toList), Chunk.documentUrl ("https://s/fid1".toList)], 0⟩] :
            List Event).filter isChatEv = [Event.chatComplete req]
      ∧ List.Forall₂
          (fun p c =>
            (extOf p = ".pdf".toList → ∃ u, c = Chunk.documentUrl u)
            ∧ (extOf p ≠ ".pdf".toList → ∃ u, c = Chunk.imageUrl u))
          ["local.pdf".toList] chunks :=
  claim5_question_chunk_first testEnv ["local.pdf".toList] ("q".toList)
    ("the-answer".toList) _ (by decide)

/-- Whenever a run's trace holds a chat-completion event, that request is the
assembled question-plus-chunks request, and the run's result is determined by
what the chat endpoint returned for it: the first choice on success, the
propagated provider error on failure, and the bare `IndexError` of
`choices[0]` on an empty choice list. -/
theorem run_chat_elim {env : Env} {paths : List Str} {q : Str}
    {r : Except RunError Str} {evs : List Event} {req : ChatRequest}
    (h : run env paths q = (r, evs)) (hreq : Event.chatComplete req ∈ evs) :
    ∃ chunks, req = mkReq q chunks
      ∧ r = (match env.chatChoices req with
             | .error m => .error (.sdkError m)
             | .ok [] => .error .indexError
             | .ok (c :: _) => .ok c) := by
  unfold run at h
  by_cases hk : apiKeyPresent env.mistralApiKey = false
  · rw [if_pos hk] at h
    injection h with h1 h2
    subst h2
    exact absurd hreq (by simp)
  · rw [if_neg hk] at h
    cases hall : processAll env paths with
    | mk pr evs0 =>
      rw [hall] at h
      have hnochat : evs0.countP isChatEv = 0 := by
        have h0 := processAll_no_chat env paths
        rw [hall] at h0
        exact h0
      rw [List.countP_eq_zero] at hnochat
      cases pr with
      | error e =>
        injection h with h1 h2
        subst h2
        exact absurd (hnochat _ hreq) (by simp [isChatEv])
      | ok chunks =>
        dsimp only at h
        have hreqeq : Event.chatComplete req ∈ evs0 ++ [Event.chatComplete (mkReq q chunks)] →
            req = mkReq q chunks := by
          intro hm
          rcases List.mem_append.mp hm with hm | hm
          · exact absurd (hnochat _ hm) (by simp [isChatEv])
          · have h3 := List.mem_singleton.mp hm
            injection h3 with h4
        cases hcc : env.chatChoices (mkReq q chunks) with
        | error m =>
          rw [hcc] at h
          injection h with h1 h2
          subst h2
          have h5 := hreqeq hreq
          subst h5
          exact ⟨chunks, rfl, by rw [hcc, ← h1]⟩
        | ok choices =>
          cases choices with
          | nil =>
            rw [hcc] at h
            injection h with h1 h2
            subst h2
            have h5 := hreqeq hreq
            subst h5
            exact ⟨chunks, rfl, by rw [hcc, ← h1]⟩
          | cons c cs =>
            rw [hcc] at h
            injection h with h1 h2
            subst h2
            have h5 := hreqeq hreq
            subst h5
            exact ⟨chunks, rfl, by rw [hcc, ← h1]⟩

/-- Claim C8 (counterexample): when the chat endpoint returns zero choices,
`_run` fails with the bare `IndexError` of the unguarded
`chat_resp.choices[0]` — it does not produce an `InferenceError` carrying
provider detail. -/
theorem claim8_counterexample :
    (run emptyChoicesEnv ["https://x/a.pdf".toList] ("q".toList)).1
      = .error .indexError := by
  decide

/-- Claim C8 (amended): on success the first completion's text is returned
verbatim; an exception raised by the completion call itself propagates with
the provider's detail; but a well-formed response with zero choices makes the
unguarded first-choice access fail with a bare `IndexError` instead of an
`InferenceError`. -/
theorem claim8_first_choice_unguarded (env : Env) (paths : List Str) (q : Str)
    (r : Except RunError Str) (evs : List Event) (req : ChatRequest)
    (h : run env paths q = (r, evs)) (hreq : Event.chatComplete req ∈ evs) :
    (∀ c cs, env.chatChoices req = .ok (c :: cs) → r = .ok c)
    ∧ (∀ m, env.chatChoices req = .error m → r = .error (.sdkError m))
    ∧ (env.chatChoices req = .ok [] → r = .error .indexError) := by
  obtain ⟨chunks, hreqeq, hr⟩ := run_chat_elim h hreq
  refine ⟨?_, ?_, ?_⟩
  · intro c cs hcc
    rw [hcc] at hr
    exact hr
  · intro m hcc
    rw [hcc] at hr
    exact hr
  · intro hcc
    rw [hcc] at hr
    exact hr

/-- Witness for C8's amended theorem at a concrete successful run on one
remote document. -/
theorem claim8_witness :
    (∀ c cs, testEnv.chatChoices (mkReq ("q".toList)
          [Chunk.documentUrl ("https://x/a.pdf".toList)]) = .ok (c :: cs) →
        (Except.ok ("the-answer".toList) : Except RunError Str) = .ok c)
    ∧ (∀ m, testEnv.chatChoices (mkReq ("q".toList)
          [Chunk.documentUrl ("https://x/a.pdf".toList)]) = .error m →
        (Except.ok ("the-answer".toList) : Except RunError Str) = .error (.sdkError m))
    ∧ (testEnv.chatChoices (mkReq ("q".toList)
          [Chunk.documentUrl ("https://x/a.pdf".toList)]) = .ok [] →
        (Except.ok ("the-answer".toList) : Except RunError Str) = .error .indexError) :=
  claim8_first_choice_unguarded testEnv ["https://x/a.pdf".toList] ("q".toList)
    (.ok ("the-answer".toList))
    [Event.chatComplete (mkReq ("q".toList) [Chunk.documentUrl ("https://x/a.pdf".toList)])]
    (mkReq ("q".toList) [Chunk.documentUrl ("https://x/a.pdf".toList)])
    (by decide) (by decide)

/-! ### URL-parsing lemmas for the query/fragment discipline of C9 -/

/-- A character absent from a list is never found by `splitAtChar`. -/
theorem splitAtChar_eq_none {c : Char} : ∀ {l : Str}, c ∉ l → splitAtChar c l = none := by
  intro l
  induction l with
  | nil => intro _; rfl
  | cons x xs ih =>
    intro hmem
    have hx : ¬(x = c) := fun he => hmem (by rw [← he]; exact List.mem_cons_self x xs)
    have hxs : c ∉ xs := fun hm => hmem (List.mem_cons_of_mem x hm)
    simp only [splitAtChar]
    rw [if_neg hx, ih hxs]

/-- Splitting found in the left part is unchanged by appending. -/
theorem splitAtChar_some_append {c : Char} :
    ∀ {l a b : Str} (m : Str), splitAtChar c l = some (a, b) →
    splitAtChar c (l ++ m) = some (a, b ++ m) := by
  intro l
  induction l with
  | nil => intro a b m h; exact absurd h (by simp [splitAtChar])
  | cons x xs ih =>
    intro a b m h
    simp only [splitAtChar] at h
    simp only [List.cons_append, splitAtChar]
    by_cases hx : x = c
    · rw [if_pos hx] at h
      rw [if_pos hx]
      injection h with h1
      injection h1 with h2 h3
      subst h2; subst h3
      rfl
    · rw [if_neg hx] at h
      rw [if_neg hx]
      cases hs : splitAtChar c xs with
      | none => rw [hs] at h; exact absurd h (by simp)
      | some ab =>
        obtain ⟨a1, b1⟩ := ab
        rw [hs] at h
        injection h with h1
        injection h1 with h2 h3
        subst h2; subst h3
        rw [show xs.append m = xs ++ m from rfl, ih m hs]

/-- Splitting at a character absent from the left part happens in the
appended part, the left part passing into the prefix. -/
theorem splitAtChar_none_append {c : Char} :
    ∀ {l : Str} (m : Str), c ∉ l →
    splitAtChar c (l ++ m) = (splitAtChar c m).map (fun ab => (l ++ ab.1, ab.2)) := by
  intro l
  induction l with
  | nil =>
    intro m _
    simp only [List.nil_append]
    cases hm : splitAtChar c m <;> simp
  | cons x xs ih =>
    intro m hmem
    have hx : ¬(x = c) := fun he => hmem (by rw [← he]; exact List.mem_cons_self x xs)
    have hxs : c ∉ xs := fun hm => hmem (List.mem_cons_of_mem x hm)
    simp only [List.cons_append, splitAtChar]
    rw [if_neg hx, show xs.append m = xs ++ m from rfl, ih m hxs]
    cases hm : splitAtChar c m with
    | none => simp
    | some ab => simp

/-- Splitting at the first explicitly appended occurrence. -/
theorem splitAtChar_append_self {c : Char} {l : Str} (m : Str) (h : c ∉ l) :
    splitAtChar c (l ++ c :: m) = some (l, m) := by
  rw [splitAtChar_none_append (c :: m) h]
  simp [splitAtChar]

/-- Dropping while over an appended stopper passes the stopper through. -/
theorem dropWhile_append_stop {p : Char → Bool} {d : Char} (hd : p d = false) :
    ∀ (l m : Str), (l ++ d :: m).dropWhile p = l.dropWhile p ++ d :: m := by
  intro l
  induction l with
  | nil => intro m; simp [List.dropWhile_cons, hd]
  | cons x xs ih =>
    intro m
    by_cases hx : p x = true
    · simp only [List.cons_append, List.dropWhile_cons, hx]
      exact ih m
    · simp only [List.cons_append, List.dropWhile_cons, hx]
      simp at hx
      simp [hx]

/-- Two-element take on a list of length at least two. -/
theorem take2_cons_cons (a b : Char) (l : Str) : (a :: b :: l).take 2 = [a, b] := rfl

/-- Two-element take on a one-element list. -/
theorem take2_singleton (a : Char) : ([a] : Str).take 2 = [a] := rfl

/-- Netloc removal commutes with appending a `?`- or `#`-led suffix. -/
theorem dropNetloc_append {b : Str} {d : Char} (m : Str) (hd : d = '?' ∨ d = '#') :
    dropNetloc (b ++ d :: m) = dropNetloc b ++ d :: m := by
  have hstop : (fun c => !netlocStop c) d = false := by
    rcases hd with rfl | rfl <;> rfl
  have hds : d ≠ '/' := by rcases hd with rfl | rfl <;> decide
  unfold dropNetloc
  cases b with
  | nil =>
    have h1 : ¬((([] : Str) ++ d :: m).take 2 = ['/', '/']) := by
      simp only [List.nil_append]
      cases m with
      | nil => rw [take2_singleton]; simp
      | cons y ys =>
        rw [take2_cons_cons]
        intro hc
        injection hc with h2 _
        exact hds h2
    have h2 : ¬((([] : Str)).take 2 = ['/', '/']) := by simp
    rw [if_neg h1, if_neg h2]
  | cons c1 b1 =>
    cases b1 with
    | nil =>
      have h1 : ¬((([c1] : Str) ++ d :: m).take 2 = ['/', '/']) := by
        simp only [List.singleton_append]
        rw [take2_cons_cons]
        intro hc
        injection hc with _ h2
        injection h2 with h3 _
        exact hds h3
      have h2 : ¬((([c1] : Str)).take 2 = ['/', '/']) := by
        rw [take2_singleton]; simp
      rw [if_neg h1, if_neg h2]
    | cons c2 b2 =>
      by_cases hb : c1 = '/' ∧ c2 = '/'
      · obtain ⟨rfl, rfl⟩ := hb
        rw [if_pos (by rw [show ('/' :: '/' :: b2) ++ d :: m
              = '/' :: '/' :: (b2 ++ d :: m) from rfl, take2_cons_cons]),
            if_pos (by rw [take2_cons_cons])]
        show ((b2 ++ d :: m).dropWhile _) = (b2.dropWhile _) ++ d :: m
        exact dropWhile_append_stop hstop b2 m
      · have h1 : ¬(((c1 :: c2 :: b2 : Str) ++ d :: m).take 2 = ['/', '/']) := by
          rw [show (c1 :: c2 :: b2 : Str) ++ d :: m
              = c1 :: c2 :: (b2 ++ d :: m) from rfl, take2_cons_cons]
          intro hc
          injection hc with h2 h3
          injection h3 with h4 _
          exact hb ⟨h2, h4⟩
        have h2 : ¬((c1 :: c2 :: b2 : Str).take 2 = ['/', '/']) := by
          rw [take2_cons_cons]
          intro hc
          injection hc with h2 h3
          injection h3 with h4 _
          exact hb ⟨h2, h4⟩
        rw [if_neg h1, if_neg h2]

/-- Netloc removal introduces no new character. -/
theorem mem_of_mem_dropNetloc {x : Char} {l : Str} (h : x ∈ dropNetloc l) : x ∈ l := by
  unfold dropNetloc at h
  split at h
  · exact List.drop_subset 2 l ((List.dropWhile_sublist _).subset h)
  · exact h

/-- Fragment removal is the identity without a `#`. -/
theorem stripFragment_of_not_mem {l : Str} (h : '#' ∉ l) : stripFragment l = l := by
  unfold stripFragment
  rw [splitAtChar_eq_none h]

/-- Query removal is the identity without a `?`. -/
theorem stripQuery_of_not_mem {l : Str} (h : '?' ∉ l) : stripQuery l = l := by
  unfold stripQuery
  rw [splitAtChar_eq_none h]

/-- Appending a query (a `?`-led suffix, whatever it holds) to a query- and
fragment-free text does not change the fragment-then-query-stripped result. -/
theorem stripQF_append_query {l : Str} (tail : Str) (hq : '?' ∉ l) (hh : '#' ∉ l) :
    stripQuery (stripFragment (l ++ '?' :: tail)) = stripQuery (stripFragment l) := by
  rw [stripFragment_of_not_mem hh, stripQuery_of_not_mem hq]
  unfold stripFragment
  rw [splitAtChar_none_append ('?' :: tail) hh]
  cases hsf : splitAtChar '#' ('?' :: tail) with
  | none =>
    show stripQuery (l ++ '?' :: tail) = l
    unfold stripQuery
    rw [splitAtChar_append_self tail hq]
  | some ab =>
    obtain ⟨a1, b1⟩ := ab
    have ha : ∃ a2, a1 = '?' :: a2 := by
      unfold splitAtChar at hsf
      rw [if_neg (by decide)] at hsf
      cases hsf2 : splitAtChar '#' tail with
      | none => rw [hsf2] at hsf; exact absurd hsf (by simp)
      | some ab2 =>
        obtain ⟨a2, b2⟩ := ab2
        rw [hsf2] at hsf
        injection hsf with h1
        injection h1 with h2 h3
        exact ⟨a2, h2.symm⟩
    obtain ⟨a2, rfl⟩ := ha
    show stripQuery (l ++ '?' :: a2) = l
    unfold stripQuery
    rw [splitAtChar_append_self a2 hq]

/-- Appending a fragment (a `#`-led suffix, whatever it holds) to a query-
and fragment-free text does not change the fragment-then-query-stripped
result. -/
theorem stripQF_append_frag {l : Str} (tail : Str) (hq : '?' ∉ l) (hh : '#' ∉ l) :
    stripQuery (stripFragment (l ++ '#' :: tail)) = stripQuery (stripFragment l) := by
  rw [stripFragment_of_not_mem hh, stripQuery_of_not_mem hq]
  unfold stripFragment
  rw [splitAtChar_append_self tail hh]
  show stripQuery l = l
  exact stripQuery_of_not_mem hq

/-- A successful split decomposes the list around the found character. -/
theorem splitAtChar_decomp {c : Char} :
    ∀ {l a b : Str}, splitAtChar c l = some (a, b) → l = a ++ c :: b := by
  intro l
  induction l with
  | nil => intro a b h; exact absurd h (by simp [splitAtChar])
  | cons x xs ih =>
    intro a b h
    simp only [splitAtChar] at h
    by_cases hx : x = c
    · rw [if_pos hx] at h
      injection h with h1
      injection h1 with h2 h3
      subst h2; subst h3
      simp [hx]
    · rw [if_neg hx] at h
      cases hs : splitAtChar c xs with
      | none => rw [hs] at h; exact absurd h (by simp)
      | some ab =>
        obtain ⟨a1, b1⟩ := ab
        rw [hs] at h
        injection h with h1
        injection h1 with h2 h3
        subst h2; subst h3
        simp [ih hs]

/-- A remote path decomposes at its first `:` into a valid scheme and a
remainder, and appending to the path only appends to the remainder of the
scheme split. -/
theorem isRemote_elim {path : Str} (hr : isRemote path = true) :
    ∃ b a, splitAtChar ':' path = some (b, a)
      ∧ splitScheme path = (b.map Char.toLower, a)
      ∧ ∀ m, splitScheme (path ++ m) = (b.map Char.toLower, a ++ m) := by
  unfold isRemote urlScheme at hr
  cases hsp : splitAtChar ':' path with
  | none =>
    have hs : splitScheme path = ([], path) := by
      unfold splitScheme
      rw [hsp]
    rw [hs] at hr
    have hr2 : ((([] : Str) == "http".toList) || (([] : Str) == "https".toList)) = true := hr
    exact absurd hr2 (by decide)
  | some ba =>
    obtain ⟨b, a⟩ := ba
    cases b with
    | nil =>
      have hs : splitScheme path = ([], path) := by
        unfold splitScheme
        rw [hsp]
      rw [hs] at hr
      have hr2 : ((([] : Str) == "http".toList) || (([] : Str) == "https".toList)) = true := hr
      exact absurd hr2 (by decide)
    | cons c cs =>
      by_cases hcond : (c.isAlpha && (c :: cs).all schemeChar) = true
      · refine ⟨c :: cs, a, rfl, ?_, ?_⟩
        · unfold splitScheme
          rw [hsp]
          simp only []
          rw [if_pos hcond]
        · intro m
          unfold splitScheme
          rw [splitAtChar_some_append m hsp]
          simp only []
          rw [if_pos hcond]
      · exfalso
        have hs : splitScheme path = ([], path) := by
          unfold splitScheme
          rw [hsp]
          simp only []
          rw [if_neg hcond]
        rw [hs] at hr
        have hr2 : ((([] : Str) == "http".toList) || (([] : Str) == "https".toList)) = true := hr
        exact absurd hr2 (by decide)

/-- For a remote reference free of `?` and `#`, appending a query or a
fragment does not change the extension `_run` computes: the extension comes
from the URL's path component only. -/
theorem extOf_append_sep {path : Str} (tail : Str) (d : Char)
    (hr : isRemote path = true) (hq : '?' ∉ path) (hh : '#' ∉ path)
    (hd : d = '?' ∨ d = '#') :
    extOf (path ++ d :: tail) = extOf path := by
  obtain ⟨b, a, hsp, hss, hssm⟩ := isRemote_elim hr
  have hrm : isRemote (path ++ d :: tail) = true := by
    unfold isRemote urlScheme at hr ⊢
    rw [hssm (d :: tail)]
    rw [hss] at hr
    exact hr
  have hpath := splitAtChar_decomp hsp
  have hqa : '?' ∉ a := fun hm => hq (by
    rw [hpath]
    exact List.mem_append.mpr (Or.inr (List.mem_cons_of_mem _ hm)))
  have hha : '#' ∉ a := fun hm => hh (by
    rw [hpath]
    exact List.mem_append.mpr (Or.inr (List.mem_cons_of_mem _ hm)))
  have hqd : '?' ∉ dropNetloc a := fun hm => hqa (mem_of_mem_dropNetloc hm)
  have hhd : '#' ∉ dropNetloc a := fun hm => hha (mem_of_mem_dropNetloc hm)
  have hup : urlParsePath (path ++ d :: tail) = urlParsePath path := by
    unfold urlParsePath
    rw [hssm (d :: tail), hss]
    simp only []
    rcases hd with rfl | rfl
    · rw [dropNetloc_append tail (Or.inl rfl), stripQF_append_query tail hqd hhd]
    · rw [dropNetloc_append tail (Or.inr rfl), stripQF_append_frag tail hqd hhd]
  unfold extOf
  rw [if_pos hrm, if_pos hr, hup]

/-- Claim C9: extension handling is lowercased and allow-list based.  The
extension `_run` computes is already lowercase; any extension outside the
allow-list (including the empty one) is rejected with `UnsupportedFileType`;
a successful path yields a `document_url` chunk exactly when the lowercased
extension is `.pdf` and an `image_url` chunk otherwise (`.jpg`, `.jpeg`,
`.png`); and for a remote reference the extension is taken from the URL's
path component — appending a query string or a fragment never changes it. -/
theorem claim9_extension_discipline (env : Env) (path : Str) :
    (extOf path).map Char.toLower = extOf path
    ∧ (supportedExt (extOf path) = false →
        processPath env path = .error (.unsupportedFileType (extOf path)))
    ∧ (∀ c evs, processPath env path = .ok (c, evs) →
        supportedExt (extOf path) = true
        ∧ (extOf path = ".pdf".toList → ∃ u, c = Chunk.documentUrl u)
        ∧ (extOf path ≠ ".pdf".toList → ∃ u, c = Chunk.imageUrl u))
    ∧ (isRemote path = true → '?' ∉ path → '#' ∉ path →
        ∀ tail : Str, extOf (path ++ '?' :: tail) = extOf path
          ∧ extOf (path ++ '#' :: tail) = extOf path) := by
  refine ⟨extOf_lower path, ?_, ?_, ?_⟩
  · intro hs
    exact processPath_unsupported hs
  · intro c evs h
    exact processPath_ok_shape h
  · intro hr hq hh tail
    exact ⟨extOf_append_sep tail '?' hr hq hh (Or.inl rfl),
           extOf_append_sep tail '#' hr hq hh (Or.inr rfl)⟩

/-- Witness for C9 at concrete references: an uppercase remote `.PDF` with a
query and with a fragment appended, and a rejected `.txt` local path. -/
theorem claim9_witness :
    (extOf ("https://h/A.PDF".toList)).map Char.toLower = extOf ("https://h/A.PDF".toList)
    ∧ processPath testEnv ("nope.txt".toList)
        = .error (.unsupportedFileType (extOf ("nope.txt".toList)))
    ∧ extOf ("https://h/A.PDF".toList ++ '?' :: ("x=1".toList))
        = extOf ("https://h/A.PDF".toList)
    ∧ extOf ("https://h/A.PDF".toList ++ '#' :: ("frag".toList))
        = extOf ("https://h/A.PDF".toList) :=
  ⟨(claim9_extension_discipline testEnv ("https://h/A.PDF".toList)).1,
   (claim9_extension_discipline testEnv ("nope.txt".toList)).2.1 (by decide),
   ((claim9_extension_discipline testEnv ("https://h/A.PDF".toList)).2.2.2 (by decide)
      (by decide) (by decide) ("x=1".toList)).1,
   ((claim9_extension_discipline testEnv ("https://h/A.PDF".toList)).2.2.2 (by decide)
      (by decide) (by decide) ("frag".toList)).2⟩

end PDFQA
